import Mathlib

/-!
Verification of `modules/ner_predictor.py` (resume_ner): a shallow embedding
of the rule-based extractors, the spaCy adapter, the fusion engine and the
document pipeline, with theorems settling the specification's claims.

Text is modelled as `List Char` (Python string indices are character
offsets).  The Python regular expressions are embedded as specialised
backtracking matchers that follow `re`'s leftmost, greedy, backtracking
semantics for the concrete patterns appearing in the source.
-/

/-- Python slice `s[a:b]` on a list of characters. -/
def pySlice (s : List Char) (a b : Nat) : List Char :=
  (s.drop a).take (b - a)

/-- Python substring test `pat in s`. -/
def containsSub (s pat : List Char) : Bool :=
  decide (pat <:+: s)

/-- Length of the maximal prefix of `s` whose characters satisfy `p`. -/
def runLen (p : Char → Bool) : List Char → Nat
  | [] => 0
  | c :: cs => if p c then runLen p cs + 1 else 0

/-- True when the character at index `i` exists and satisfies `p`. -/
def charAtIs (p : Char → Bool) (s : List Char) (i : Nat) : Bool :=
  match s.get? i with
  | some c => p c
  | none => false

/-- True when the literal `lit` occurs at index `i` of `s`. -/
def litAt (s : List Char) (i : Nat) (lit : List Char) : Bool :=
  (s.drop i).take lit.length == lit

/-- The list `[base + n, base + n - 1, ..., base]` (greedy order for a
quantifier that may consume `0..n` items after `base`). -/
def descRange (base n : Nat) : List Nat :=
  (List.range (n + 1)).map (fun k => base + n - k)

/-- The list `[n, n - 1, ..., 1]` (greedy order for a `+` quantifier). -/
def descFrom (n : Nat) : List Nat :=
  (List.range n).map (fun k => n - k)

/-- Model of CPython's `Py_UNICODE_ISSPACE`: the character class behind the
regex `\s` for `str` patterns and behind `str.strip()`. -/
def isPySpace (c : Char) : Bool :=
  (9 ≤ c.val && c.val ≤ 13) || c.val == 32 || (28 ≤ c.val && c.val ≤ 31) ||
  c.val == 0x85 || c.val == 0xA0 || c.val == 0x1680 ||
  (0x2000 ≤ c.val && c.val ≤ 0x200A) || c.val == 0x2028 || c.val == 0x2029 ||
  c.val == 0x202F || c.val == 0x205F || c.val == 0x3000

/-- Python `str.strip()`: drop leading and trailing whitespace. -/
def pyStrip (s : List Char) : List Char :=
  ((s.dropWhile isPySpace).reverse.dropWhile isPySpace).reverse

/-- Python `str.lower()`, character by character (exact on the ASCII texts
this development evaluates; the merge theorems hold for any normaliser). -/
def pyLower (s : List Char) : List Char :=
  s.map Char.toLower

/-- A candidate span as the Python code builds it: the dict with keys
`"text"`, `"start"`, `"end"`, `"source"` and, for name candidates only, a
`"confidence"` key, modelled as an `Option`.  The Python key `"end"` is a
Lean keyword, so the field is called `stop`. -/
structure Ent where
  text : List Char
  start : Nat
  stop : Nat
  source : String
  confidence : Option ℚ
deriving DecidableEq, Repr

instance : Nonempty Ent := ⟨⟨[], 0, 0, "", none⟩⟩

instance : Nonempty (List Char × Ent) := ⟨⟨[], Classical.arbitrary Ent⟩⟩

/-- The character class `[a-zA-Z0-9._%+-]` of the email regex. -/
def isLocalChar (c : Char) : Bool :=
  c.isAlpha || c.isDigit || c == '.' || c == '_' || c == '%' || c == '+' || c == '-'

/-- The character class `[a-zA-Z0-9.-]` of the email regex. -/
def isDomainChar (c : Char) : Bool :=
  c.isAlpha || c.isDigit || c == '.' || c == '-'

/-- Backtracking match of `[a-zA-Z0-9.-]+\.[a-zA-Z]{2,}` at index `j` of
`s`: the `+` is greedy, so the lengths it consumes are tried in descending
order (the argument counts the current attempt); `\.` must then match, and
the trailing `[a-zA-Z]{2,}` is greedy with nothing after it.  Returns the
index just past the whole match. -/
def emailTailMatch (s : List Char) (j : Nat) : Nat → Option Nat
  | 0 => none
  | L + 1 =>
      if charAtIs (· == '.') s (j + L + 1) then
        let t := runLen Char.isAlpha (s.drop (j + L + 2))
        if 2 ≤ t then some (j + L + 2 + t)
        else emailTailMatch s j L
      else emailTailMatch s j L

/-- Python `re` match of `[a-zA-Z0-9._%+-]+@[a-zA-Z0-9.-]+\.[a-zA-Z]{2,}`
anchored at index `i`.  `@` is not a local character, so the greedy `+`
before it cannot usefully backtrack: the maximal local run must be nonempty
and followed by `@`. -/
def matchEmailAt (s : List Char) (i : Nat) : Option Nat :=
  let l := runLen isLocalChar (s.drop i)
  if l == 0 then none
  else if charAtIs (· == '@') s (i + l) then
    emailTailMatch s (i + l + 1) (runLen isDomainChar (s.drop (i + l + 1)))
  else none

/-- Model of `re.finditer`: try a match at each index from left to right;
on success `(a, b)` (capture-group bounds, `b` also the end of the whole
match for the patterns embedded here) record it and resume at the match
end.  Fuel bounds the number of steps; `scanAll` supplies enough. -/
def scanAux (f : Nat → Option (Nat × Nat)) (len : Nat) : Nat → Nat → List (Nat × Nat)
  | 0, _ => []
  | fuel + 1, i =>
      if len < i then []
      else
        match f i with
        | some (a, b) => (a, b) :: scanAux f len fuel (if i < b then b else i + 1)
        | none => scanAux f len fuel (i + 1)

/-- All matches of `f` in a text of length `len`, as `re.finditer` yields
them. -/
def scanAll (f : Nat → Option (Nat × Nat)) (len : Nat) : List (Nat × Nat) :=
  scanAux f len (len + 2) 0

/-- The false-positive filter of `extract_emails_by_rules` (source lines
33-37): reject when the lowercased text contains `http://`, `https://`,
`github` or `linkedin`, when the `@` count differs from one, or when the
raw text contains `.git`. -/
def ruleEmailReject (email : List Char) : Bool :=
  (["http://", "https://", "github", "linkedin"].any
    (fun x => containsSub (pyLower email) x.toList))
  || email.count '@' != 1
  || containsSub email (".git".toList)

/-- The email candidates before deduplication: each regex match, as a span
dict, kept when the filter does not reject its text (source lines 29-44). -/
def emailCandidates (s : List Char) : List Ent :=
  ((scanAll (fun i => (matchEmailAt s i).map (fun e => (i, e))) s.length).map
    (fun m => (⟨pySlice s m.1 m.2, m.1, m.2, "rule-based", none⟩ : Ent))).filter
    (fun e => !ruleEmailReject e.text)

/-- Python dict assignment `d[k] = v` on an insertion-ordered association
list: an existing key keeps its position and takes the new value, a new key
is appended. -/
def dictSet (d : List (List Char × Ent)) (k : List Char) (v : Ent) :
    List (List Char × Ent) :=
  match d with
  | [] => [(k, v)]
  | (k', v') :: rest =>
      if k = k' then (k, v) :: rest else (k', v') :: dictSet rest k v

/-- `ResumeNERExtractor.extract_emails_by_rules` (source lines 23-47):
regex scan, false-positive filter, then the deduplication
`list({e["text"]: e for e in emails}.values())`. -/
def extract_emails_by_rules (s : List Char) : List Ent :=
  ((emailCandidates s).foldl (fun d e => dictSet d e.text e) []).map Prod.snd

/-- The character class `[A-ZÀ-ỹ]` of the name patterns: a codepoint range,
`A`-`Z` together with U+00C0 to U+1EF9. -/
def isUpperName (c : Char) : Bool :=
  (65 ≤ c.val && c.val ≤ 90) || (0xC0 ≤ c.val && c.val ≤ 0x1EF9)

/-- The character class `[a-zà-ỹ]` of the name patterns: `a`-`z` together
with U+00E0 to U+1EF9. -/
def isLowerName (c : Char) : Bool :=
  (97 ≤ c.val && c.val ≤ 122) || (0xE0 ≤ c.val && c.val ≤ 0x1EF9)

/-- Candidate end indices, in greedy (descending) order, for one unit
`[A-ZÀ-ỹ][a-zà-ỹ]+` starting at index `p`. -/
def unitEnds (s : List Char) (p : Nat) : List Nat :=
  if charAtIs isUpperName s p then
    (descFrom (runLen isLowerName (s.drop (p + 1)))).map (fun m => p + 1 + m)
  else []

/-- Candidate end indices, in backtracking order, for one more star unit
`\s+[A-ZÀ-ỹ][a-zà-ỹ]+` starting at index `p` (the `\s+` length is tried
longest first, then the unit greedily). -/
def oneMoreEnds (s : List Char) (p : Nat) : List Nat :=
  (descFrom (runLen isPySpace (s.drop p))).flatMap (fun a => unitEnds s (p + a))

/-- Candidate end indices, in backtracking order, of
`(?:\s+[A-ZÀ-ỹ][a-zà-ỹ]+)*` starting at index `p`: greedy, so more
iterations are tried first and the empty iteration last.  Fuel bounds the
recursion (each iteration consumes at least two characters). -/
def starEnds (s : List Char) : Nat → Nat → List Nat
  | 0, p => [p]
  | fuel + 1, p => (oneMoreEnds s p).flatMap (fun e => starEnds s fuel e) ++ [p]

/-- Candidate end indices, in backtracking order, of the capture group
`([A-ZÀ-ỹ][a-zà-ỹ]+(?:\s+[A-ZÀ-ỹ][a-zà-ỹ]+)*)` starting at index `q`. -/
def groupEnds (s : List Char) (q : Nat) : List Nat :=
  (unitEnds s q).flatMap (fun e => starEnds s (s.length + 1) e)

/-- Candidate end indices, in backtracking order, of `\s*:?\s*` starting
at index `p`: the first `\s*` greedy, then `:?` preferring to consume,
then the second `\s*` greedy. -/
def sepEnds (s : List Char) (p : Nat) : List Nat :=
  (descRange 0 (runLen isPySpace (s.drop p))).flatMap (fun a =>
    let q := p + a
    (if charAtIs (· == ':') s q then
        descRange (q + 1) (runLen isPySpace (s.drop (q + 1)))
      else []) ++ descRange q (runLen isPySpace (s.drop q)))

/-- End index of a `Full\s+Name`-shaped label alternative at index `i`
(`word` is `Name` or `name`).  The `\s+` cannot usefully backtrack
because `N`/`n` is not a whitespace character. -/
def labelFull (s : List Char) (i : Nat) (word : List Char) : Option Nat :=
  if litAt s i ("Full".toList) then
    let w := runLen isPySpace (s.drop (i + 4))
    if 1 ≤ w && litAt s (i + 4 + w) word then some (i + 4 + w + word.length)
    else none
  else none

/-- End indices of the label alternation `(?:Full\s+Name|Full\s+name|Name|Tên)`
at index `i`, in the order the alternatives are tried. -/
def labelEnds (s : List Char) (i : Nat) : List Nat :=
  (labelFull s i ("Name".toList)).toList ++ (labelFull s i ("name".toList)).toList ++
  (if litAt s i ("Name".toList) then [i + 4] else []) ++
  (if litAt s i ("Tên".toList) then [i + 3] else [])

/-- The first candidate group start at which the capture group matches at
all, paired with the group's greedy end: pattern 1 has nothing after the
group, so the greediest group match of the earliest viable start wins. -/
def firstGroupMatch (s : List Char) : List Nat → Option (Nat × Nat)
  | [] => none
  | q :: rest =>
      match groupEnds s q with
      | e :: _ => some (q, e)
      | [] => firstGroupMatch s rest

/-- Python `re` match, at index `i`, of the first name pattern
`(?:Full\s+Name|Full\s+name|Name|Tên)\s*:?\s*([A-ZÀ-ỹ][a-zà-ỹ]+(?:\s+[A-ZÀ-ỹ][a-zà-ỹ]+)*)`,
returning the capture-group bounds; the group end is also the end of the
whole match. -/
def matchP1At (s : List Char) (i : Nat) : Option (Nat × Nat) :=
  firstGroupMatch s ((labelEnds s i).flatMap (fun ld => sepEnds s ld))

/-- The `$` of a MULTILINE pattern: end of text or just before a newline. -/
def dollarAt (s : List Char) (e : Nat) : Bool :=
  e == s.length || charAtIs (· == '\n') s e

/-- One backtracking attempt of pattern 2 for a fixed `\s+` length: the
first (greediest) group end at which `$` holds. -/
def p2Try (s : List Char) (q : Nat) : Option (Nat × Nat) :=
  ((groupEnds s q).filter (fun e => dollarAt s e)).head?.map (fun e => (q, e))

/-- The first `some` in a list of attempts (backtracking order). -/
def firstSome {α : Type} : List (Option α) → Option α
  | [] => none
  | some x :: _ => some x
  | none :: rest => firstSome rest

/-- Python `re` MULTILINE match, at index `i`, of the second name pattern
`^##\s+([A-ZÀ-ỹ][a-zà-ỹ]+(?:\s+[A-ZÀ-ỹ][a-zà-ỹ]+)*)$`, returning the
capture-group bounds (also the end of the whole match, `$` being
zero-width). -/
def matchP2At (s : List Char) (i : Nat) : Option (Nat × Nat) :=
  if (i == 0 || charAtIs (· == '\n') s (i - 1)) && litAt s i ("##".toList) then
    firstSome ((descFrom (runLen isPySpace (s.drop (i + 2)))).map
      (fun a => p2Try s (i + 2 + a)))
  else none

/-- The `(pattern, confidence)` loop of `extract_names_by_rules` (source
lines 55-62): all matches of pattern 1 (confidence 0.9) followed by all
matches of pattern 2 (confidence 0.8), as capture-group bounds. -/
def nameCandidates (s : List Char) : List (Nat × Nat × ℚ) :=
  (scanAll (matchP1At s) s.length).map (fun m => (m.1, m.2, mkRat 9 10)) ++
  (scanAll (matchP2At s) s.length).map (fun m => (m.1, m.2, mkRat 8 10))

/-- The validation of `extract_names_by_rules` (source lines 65-71): reject
when the stripped name is shorter than 3 or longer than 50 characters,
contains `@`, or its lowercase form contains `http` or one of `email`,
`phone`, `address`. -/
def nameReject (name : List Char) : Bool :=
  name.length < 3 || 50 < name.length ||
  name.contains '@' || containsSub (pyLower name) ("http".toList) ||
  (["email", "phone", "address"].any (fun x => containsSub (pyLower name) x.toList))

/-- `ResumeNERExtractor.extract_names_by_rules` (source lines 49-83): both
patterns' matches in order; each match's group is stripped, validated,
checked case-insensitively against the names collected so far, and
appended with the capture-group offsets and the pattern's confidence. -/
def extract_names_by_rules (s : List Char) : List Ent :=
  (nameCandidates s).foldl (fun names m =>
    let name := pyStrip (pySlice s m.1 m.2.1)
    if nameReject name then names
    else if names.any (fun n => pyLower n.text == pyLower name) then names
    else names ++ [⟨name, m.1, m.2.1, "rule-based", some m.2.2⟩]) []

/-- The EMAIL false-positive filter of `extract_by_spacy` (source lines
100-104): reject when the lowercased text contains `http://`, `github` or
`.git`, or when the `@` count differs from one. -/
def spacyEmailReject (t : List Char) : Bool :=
  (["http://", "github", ".git"].any (fun x => containsSub (pyLower t) x.toList))
  || t.count '@' != 1

/-- A span of the injected spaCy model: `ent.label_`, `ent.text`,
`ent.start_char`, `ent.end_char`. -/
structure SpacyEnt where
  label : String
  text : List Char
  start_char : Nat
  end_char : Nat
deriving DecidableEq, Repr

/-- Python `entities[label].append(v)` on the insertion-ordered dict:
`none` models the `KeyError` raised when `label` is not a key. -/
def dictAppend (d : List (String × List Ent)) (k : String) (v : Ent) :
    Option (List (String × List Ent)) :=
  match d with
  | [] => none
  | (k', vs) :: rest =>
      if k = k' then some ((k', vs ++ [v]) :: rest)
      else (dictAppend rest k v).map (fun r => (k', vs) :: r)

/-- The loop of `extract_by_spacy` over `doc.ents` (source lines 95-111):
an EMAIL span failing the filter is skipped; every other span is appended
under its label, and a label that is not a key of the dict raises
`KeyError`, modelled as `Except.error`. -/
def spacyLoop : List SpacyEnt → List (String × List Ent) →
    Except String (List (String × List Ent))
  | [], d => Except.ok d
  | ent :: rest, d =>
      if ent.label == "EMAIL" && spacyEmailReject ent.text then spacyLoop rest d
      else
        match dictAppend d ent.label
            (⟨ent.text, ent.start_char, ent.end_char, "spacy", none⟩ : Ent) with
        | some d2 => spacyLoop rest d2
        | none => Except.error ent.label

/-- `ResumeNERExtractor.extract_by_spacy` (source lines 87-113), the trained
model injected as the span list it returns for the document: starts from
`{"NAME": [], "EMAIL": []}` and runs the loop. -/
def extract_by_spacy (ents : List SpacyEnt) :
    Except String (List (String × List Ent)) :=
  spacyLoop ents [("NAME", []), ("EMAIL", [])]

/-- Python `if key not in merged: merged[key] = ent` (source lines 152-155):
a new key is appended, an existing one leaves the dict unchanged. -/
def insertIfAbsent (d : List (List Char × Ent)) (k : List Char) (v : Ent) :
    List (List Char × Ent) :=
  if k ∈ d.map Prod.fst then d else d ++ [(k, v)]

/-- `ResumeNERExtractor._merge_entities` (source lines 141-157): insert the
rule-based spans into an empty dict keyed by lowercased text, then each
spaCy span only when its key is absent; the result is the dict's values in
insertion order. -/
def merge_entities (rule_ents spacy_ents : List Ent) : List Ent :=
  let m1 := rule_ents.foldl (fun d e => dictSet d (pyLower e.text) e) []
  (spacy_ents.foldl (fun d e => insertIfAbsent d (pyLower e.text) e) m1).map Prod.snd

/-- Python `d[k]` for the NAME/EMAIL lookups of `extract_entities` (both
keys are always present there; the default is never taken on those calls). -/
def dictGet (d : List (String × List Ent)) (k : String) : List Ent :=
  match d.lookup k with
  | some v => v
  | none => []

/-- `ResumeNERExtractor.extract_entities` (source lines 117-139): rule-based
and spaCy extraction, then one merge per entity type; the pair is
(NAME list, EMAIL list). -/
def extract_entities (nlp : List Char → List SpacyEnt) (text : List Char) :
    Except String (List Ent × List Ent) :=
  match extract_by_spacy (nlp text) with
  | Except.error e => Except.error e
  | Except.ok d =>
      Except.ok (merge_entities (extract_names_by_rules text) (dictGet d ("NAME")),
        merge_entities (extract_emails_by_rules text) (dictGet d ("EMAIL")))

deriving instance DecidableEq for Except

/-- The result dict `predict` assembles (source lines 206-214). -/
structure PredictResult where
  file : String
  name : List (List Char)
  email : List (List Char)
  names : List Ent
  emails : List Ent
deriving DecidableEq, Repr

/-- `ResumeNERExtractor.predict` (source lines 181-233).  `pdf_to_text` is
the external PDF collaborator, so its outcome is injected: `none` models a
missing or unreadable file, `some t` an extracted text.  Python's
`if not text: return None` makes both `None` and the empty string produce
no result, modelled as `Except.ok none`; a `KeyError` escaping
`extract_entities` propagates as `Except.error`. -/
def predict (nlp : List Char → List SpacyEnt) (pdf_path : String)
    (pdfText : Option (List Char)) : Except String (Option PredictResult) :=
  match pdfText with
  | none => Except.ok none
  | some text =>
      if text.isEmpty then Except.ok none
      else
        match extract_entities nlp text with
        | Except.error e => Except.error e
        | Except.ok r =>
            Except.ok (some ⟨pdf_path, r.1.map (fun e => e.text),
              r.2.map (fun e => e.text), r.1, r.2⟩)

/-- The predicate claim C3 states for the Model Extractor Adapter's EMAIL
filter, following the spec's words: reject if the text contains `http://`,
`https://`, `github` or `linkedin` case-insensitively, contains the
literal substring `.git`, or has more than one `@`. -/
def claimedAdapterReject (t : List Char) : Bool :=
  (["http://", "https://", "github", "linkedin"].any
    (fun x => containsSub (pyLower t) x.toList))
  || containsSub t (".git".toList) || 1 < t.count '@'

/-- The amended description of the adapter's EMAIL filter, in the spec's
vocabulary: reject exactly when the text case-insensitively contains
`http://`, `github` or `.git`, or its number of `@` characters differs
from one. -/
def amendedAdapterReject (t : List Char) : Bool :=
  containsSub (pyLower t) ("http://".toList)
  || containsSub (pyLower t) ("github".toList)
  || containsSub (pyLower t) (".git".toList)
  || !(t.count '@' == 1)

/-! Concrete spans used to instantiate the theorems below. -/

/-- The pattern-sourced span of the spec's John Smith scenario. -/
def jsPattern : Ent := ⟨("John Smith").toList, 14, 24, "rule-based", some (mkRat 9 10)⟩

/-- The model-sourced span of the spec's John Smith scenario. -/
def jsModel : Ent := ⟨("john smith").toList, 14, 24, "spacy", none⟩

/-- A pattern-sourced email span for the two-distinct-emails scenario. -/
def eaSpan : Ent := ⟨("a@x.com").toList, 0, 7, "rule-based", none⟩

/-- A model-sourced email span for the two-distinct-emails scenario. -/
def ebSpan : Ent := ⟨("b@x.com").toList, 10, 17, "spacy", none⟩

/-- Input text for the email filter-soundness witness. -/
def exText : List Char := ("Contact: x@y.com").toList

/-- The span `extract_emails_by_rules` finds in `exText`. -/
def exSpan : Ent := ⟨("x@y.com").toList, 9, 16, "rule-based", none⟩

/-! Lemmas about the Python dict operations. -/

/-- First value under a key in an association list (Python `d[k]` for the
dicts built here, whose keys are unique). -/
def dictFind (d : List (List Char × Ent)) (k : List Char) : Option Ent :=
  match d with
  | [] => none
  | (k', v) :: rest => if k = k' then some v else dictFind rest k

theorem dictSet_nil (k : List Char) (v : Ent) : dictSet [] k v = [(k, v)] := rfl

theorem dictSet_cons (k' : List Char) (v' : Ent) (rest : List (List Char × Ent))
    (k : List Char) (v : Ent) :
    dictSet ((k', v') :: rest) k v =
      if k = k' then (k, v) :: rest else (k', v') :: dictSet rest k v := rfl

theorem dictFind_nil (k : List Char) : dictFind [] k = none := rfl

theorem dictFind_cons (k' : List Char) (v : Ent) (rest : List (List Char × Ent))
    (k : List Char) :
    dictFind ((k', v) :: rest) k = if k = k' then some v else dictFind rest k := rfl

theorem dictSet_keys (d : List (List Char × Ent)) (k : List Char) (v : Ent) :
    (dictSet d k v).map Prod.fst =
      if k ∈ d.map Prod.fst then d.map Prod.fst else d.map Prod.fst ++ [k] := by
  induction d with
  | nil => simp [dictSet_nil]
  | cons p rest ih =>
    obtain ⟨k', v'⟩ := p
    by_cases h : k = k'
    · subst h
      simp [dictSet_cons]
    · simp only [dictSet_cons, if_neg h, List.map_cons, ih, List.mem_cons]
      by_cases h2 : k ∈ rest.map Prod.fst
      · simp [h, h2]
      · simp [h, h2]

theorem dictSet_keys_nodup {d : List (List Char × Ent)} {k : List Char} {v : Ent}
    (h : (d.map Prod.fst).Nodup) : ((dictSet d k v).map Prod.fst).Nodup := by
  rw [dictSet_keys]
  by_cases h2 : k ∈ d.map Prod.fst
  · simpa [h2]
  · simp [h2, List.nodup_append, h]

theorem mem_dictSet {d : List (List Char × Ent)} {k : List Char} {v : Ent}
    {p : List Char × Ent} (h : p ∈ dictSet d k v) : p ∈ d ∨ p = (k, v) := by
  induction d with
  | nil => simpa [dictSet_nil] using h
  | cons q rest ih =>
    obtain ⟨k', v'⟩ := q
    by_cases h2 : k = k'
    · subst h2
      rcases (by simpa [dictSet_cons] using h : p = (k, v) ∨ p ∈ rest) with h3 | h3
      · exact Or.inr h3
      · exact Or.inl (List.mem_cons_of_mem _ h3)
    · rcases (by simpa [dictSet_cons, h2] using h : p = (k', v') ∨ p ∈ dictSet rest k v)
        with h3 | h3
      · exact Or.inl (by simp [h3])
      · rcases ih h3 with h4 | h4
        · exact Or.inl (List.mem_cons_of_mem _ h4)
        · exact Or.inr h4

theorem dictFind_dictSet (d : List (List Char × Ent)) (k : List Char) (v : Ent)
    (k' : List Char) :
    dictFind (dictSet d k v) k' = if k' = k then some v else dictFind d k' := by
  induction d with
  | nil => simp [dictSet_nil, dictFind_cons, dictFind_nil]
  | cons q rest ih =>
    obtain ⟨k0, v0⟩ := q
    by_cases h : k = k0
    · subst h
      by_cases h2 : k' = k
      · simp [dictSet_cons, dictFind_cons, h2]
      · simp [dictSet_cons, dictFind_cons, h2]
    · by_cases h2 : k' = k0
      · have h3 : k' ≠ k := by
          rw [h2]
          exact fun he => h he.symm
        have h4 : k0 ≠ k := fun he => h he.symm
        simp [dictSet_cons, dictFind_cons, h, h2, h3, h4]
      · simp [dictSet_cons, dictFind_cons, h, h2, ih]

theorem dictFind_of_mem :
    ∀ {d : List (List Char × Ent)} {p : List Char × Ent},
      (d.map Prod.fst).Nodup → p ∈ d → dictFind d p.1 = some p.2 := by
  intro d
  induction d with
  | nil => intro p _ h; cases h
  | cons q rest ih =>
    intro p hnd hp
    obtain ⟨k0, v0⟩ := q
    rcases List.mem_cons.mp hp with h | h
    · subst h
      simp [dictFind_cons]
    · have hne : p.1 ≠ k0 := by
        intro he
        have h5 : p.1 ∈ rest.map Prod.fst := List.mem_map_of_mem Prod.fst h
        rw [he] at h5
        exact (List.nodup_cons.mp (by simpa using hnd)).1 h5
      rw [dictFind_cons, if_neg hne]
      exact ih (List.nodup_cons.mp (by simpa using hnd)).2 h

theorem foldl_dictSet_mem (kf : Ent → List Char) :
    ∀ (l : List Ent) (d : List (List Char × Ent)) (p : List Char × Ent),
      p ∈ l.foldl (fun d e => dictSet d (kf e) e) d →
      p ∈ d ∨ (p.2 ∈ l ∧ p.1 = kf p.2) := by
  intro l
  induction l with
  | nil => intro d p h; exact Or.inl h
  | cons e rest ih =>
    intro d p h
    rcases ih (dictSet d (kf e) e) p (by simpa using h) with h1 | h1
    · rcases mem_dictSet h1 with h2 | h2
      · exact Or.inl h2
      · subst h2
        exact Or.inr ⟨List.mem_cons_self _ _, rfl⟩
    · exact Or.inr ⟨List.mem_cons_of_mem _ h1.1, h1.2⟩

theorem foldl_dictSet_keys_nodup (kf : Ent → List Char) :
    ∀ (l : List Ent) (d : List (List Char × Ent)),
      (d.map Prod.fst).Nodup →
      ((l.foldl (fun d e => dictSet d (kf e) e) d).map Prod.fst).Nodup := by
  intro l
  induction l with
  | nil => intro d h; exact h
  | cons e rest ih =>
    intro d h
    exact ih (dictSet d (kf e) e) (dictSet_keys_nodup h)

theorem foldl_dictSet_keys_mono (kf : Ent → List Char) :
    ∀ (l : List Ent) (d : List (List Char × Ent)) (k : List Char),
      k ∈ d.map Prod.fst ∨ (∃ e ∈ l, kf e = k) →
      k ∈ (l.foldl (fun d e => dictSet d (kf e) e) d).map Prod.fst := by
  intro l
  induction l with
  | nil =>
    intro d k h
    rcases h with h | ⟨e, he, _⟩
    · exact h
    · cases he
  | cons e rest ih =>
    intro d k h
    have hstep : k ∈ d.map Prod.fst ∨ kf e = k →
        k ∈ (dictSet d (kf e) e).map Prod.fst := by
      intro h2
      rw [dictSet_keys]
      by_cases h3 : kf e ∈ d.map Prod.fst
      · rw [if_pos h3]
        rcases h2 with h4 | h4
        · exact h4
        · exact h4 ▸ h3
      · rw [if_neg h3]
        rcases h2 with h4 | h4
        · exact List.mem_append_left _ h4
        · exact List.mem_append_right _ (by simp [h4])
    rcases h with h | ⟨x, hx, hk⟩
    · exact ih _ k (Or.inl (hstep (Or.inl h)))
    · rcases List.mem_cons.mp hx with h4 | h4
      · subst h4
        exact ih _ k (Or.inl (hstep (Or.inr hk)))
      · exact ih _ k (Or.inr ⟨x, h4, hk⟩)

theorem getLast?_cons_eq (a : Ent) (l : List Ent) :
    (a :: l).getLast? = some ((l.getLast?).getD a) := by
  induction l generalizing a with
  | nil => rfl
  | cons b m ih =>
    rw [List.getLast?_cons_cons, ih b]
    simp

theorem foldl_dictSet_find (kf : Ent → List Char) :
    ∀ (l : List Ent) (d : List (List Char × Ent)) (k : List Char),
      dictFind (l.foldl (fun d e => dictSet d (kf e) e) d) k =
        match (l.filter (fun e => kf e == k)).getLast? with
        | some e => some e
        | none => dictFind d k := by
  intro l
  induction l with
  | nil => intro d k; rfl
  | cons e rest ih =>
    intro d k
    simp only [List.foldl_cons, ih (dictSet d (kf e) e) k]
    by_cases h : kf e = k
    · rw [List.filter_cons_of_pos (by simpa using h)]
      rcases h2 : (rest.filter (fun e => kf e == k)).getLast? with _ | x
      · rw [getLast?_cons_eq, h2]
        simp [h2, dictFind_dictSet, h]
      · rw [getLast?_cons_eq, h2]
        simp [h2]
    · rw [List.filter_cons_of_neg (by simpa using h)]
      have h3 : ¬k = kf e := fun he => h he.symm
      rcases h2 : (rest.filter (fun e => kf e == k)).getLast? with _ | x
      · simp [h2, dictFind_dictSet, h3]
      · simp [h2]
theorem insertIfAbsent_keys (d : List (List Char × Ent)) (k : List Char) (v : Ent) :
    (insertIfAbsent d k v).map Prod.fst =
      if k ∈ d.map Prod.fst then d.map Prod.fst else d.map Prod.fst ++ [k] := by
  unfold insertIfAbsent
  by_cases h : k ∈ d.map Prod.fst
  · simp [h]
  · simp [h]

theorem insertIfAbsent_keys_nodup {d : List (List Char × Ent)} {k : List Char}
    {v : Ent} (h : (d.map Prod.fst).Nodup) :
    ((insertIfAbsent d k v).map Prod.fst).Nodup := by
  rw [insertIfAbsent_keys]
  by_cases h2 : k ∈ d.map Prod.fst
  · simpa [h2]
  · simp [h2, List.nodup_append, h]

theorem mem_insertIfAbsent {d : List (List Char × Ent)} {k : List Char} {v : Ent}
    {p : List Char × Ent} (h : p ∈ insertIfAbsent d k v) :
    p ∈ d ∨ (p = (k, v) ∧ k ∉ d.map Prod.fst) := by
  unfold insertIfAbsent at h
  by_cases h2 : k ∈ d.map Prod.fst
  · rw [if_pos h2] at h
    exact Or.inl h
  · rw [if_neg h2] at h
    rcases List.mem_append.mp h with h3 | h3
    · exact Or.inl h3
    · exact Or.inr ⟨by simpa using h3, h2⟩

theorem insertIfAbsent_keys_mono {d : List (List Char × Ent)} {k : List Char}
    {v : Ent} {k' : List Char} (h : k' ∈ d.map Prod.fst) :
    k' ∈ (insertIfAbsent d k v).map Prod.fst := by
  rw [insertIfAbsent_keys]
  by_cases h2 : k ∈ d.map Prod.fst
  · rw [if_pos h2]
    exact h
  · rw [if_neg h2]
    exact List.mem_append_left _ h

theorem foldl_insertIfAbsent_mem (kf : Ent → List Char) :
    ∀ (s : List Ent) (d : List (List Char × Ent)) (p : List Char × Ent),
      p ∈ s.foldl (fun d e => insertIfAbsent d (kf e) e) d →
      p ∈ d ∨ (p.2 ∈ s ∧ p.1 = kf p.2 ∧ p.1 ∉ d.map Prod.fst) := by
  intro s
  induction s with
  | nil => intro d p h; exact Or.inl h
  | cons e rest ih =>
    intro d p h
    rcases ih (insertIfAbsent d (kf e) e) p (by simpa using h) with h1 | h1
    · rcases mem_insertIfAbsent h1 with h2 | ⟨h2, h3⟩
      · exact Or.inl h2
      · subst h2
        exact Or.inr ⟨List.mem_cons_self _ _, rfl, h3⟩
    · refine Or.inr ⟨List.mem_cons_of_mem _ h1.1, h1.2.1, fun h4 => h1.2.2 ?_⟩
      exact insertIfAbsent_keys_mono h4
  
theorem foldl_insertIfAbsent_keys_nodup (kf : Ent → List Char) :
    ∀ (s : List Ent) (d : List (List Char × Ent)),
      (d.map Prod.fst).Nodup →
      ((s.foldl (fun d e => insertIfAbsent d (kf e) e) d).map Prod.fst).Nodup := by
  intro s
  induction s with
  | nil => intro d h; exact h
  | cons e rest ih =>
    intro d h
    exact ih (insertIfAbsent d (kf e) e) (insertIfAbsent_keys_nodup h)

theorem dictSet_of_not_mem {d : List (List Char × Ent)} {k : List Char} {v : Ent}
    (h : k ∉ d.map Prod.fst) : dictSet d k v = d ++ [(k, v)] := by
  induction d with
  | nil => simp [dictSet_nil]
  | cons p rest ih =>
    obtain ⟨k', v'⟩ := p
    have h1 : k ≠ k' := by
      intro h2
      exact h (by simp [h2])
    rw [dictSet_cons, if_neg h1, ih (fun h2 => h (by simp [h2]))]
    simp

theorem foldl_dictSet_eq_append (kf : Ent → List Char) :
    ∀ (l : List Ent) (d : List (List Char × Ent)),
      (d.map Prod.fst ++ l.map kf).Nodup →
      l.foldl (fun d e => dictSet d (kf e) e) d = d ++ l.map (fun e => (kf e, e)) := by
  intro l
  induction l with
  | nil => intro d _; simp
  | cons e rest ih =>
    intro d hnd
    have h1 : kf e ∉ d.map Prod.fst := by
      intro h2
      have h3 := (List.nodup_append.mp hnd).2.2
      exact h3 h2 (by simp)
    have h2 : ((d.map Prod.fst ++ [kf e]) ++ rest.map kf).Nodup := by
      have : d.map Prod.fst ++ (e :: rest).map kf =
          (d.map Prod.fst ++ [kf e]) ++ rest.map kf := by
        simp
      rw [this] at hnd
      exact hnd
    have h4 : (d ++ [(kf e, e)]).map Prod.fst = d.map Prod.fst ++ [kf e] := by
      simp
    simp only [List.foldl_cons, dictSet_of_not_mem h1]
    rw [ih (d ++ [(kf e, e)]) (by rw [h4]; exact h2)]
    simp

theorem foldl_insertIfAbsent_eq (kf : Ent → List Char) :
    ∀ (s : List Ent) (d : List (List Char × Ent)),
      (s.map kf).Nodup →
      s.foldl (fun d e => insertIfAbsent d (kf e) e) d =
        d ++ (s.filter (fun e => !decide (kf e ∈ d.map Prod.fst))).map
          (fun e => (kf e, e)) := by
  intro s
  induction s with
  | nil => intro d _; simp
  | cons e rest ih =>
    intro d hnd
    have htail : (rest.map kf).Nodup := (by simpa using hnd : _ ∧ _).2
    have hnotin : kf e ∉ rest.map kf := (by simpa using hnd : _ ∧ _).1
    by_cases h : kf e ∈ d.map Prod.fst
    · have hstep : insertIfAbsent d (kf e) e = d := by
        unfold insertIfAbsent
        rw [if_pos h]
      rw [List.foldl_cons, hstep, ih d htail,
        List.filter_cons_of_neg (by simp [h])]
    · have hstep : insertIfAbsent d (kf e) e = d ++ [(kf e, e)] := by
        unfold insertIfAbsent
        rw [if_neg h]
      have hkeys : (d ++ [(kf e, e)]).map Prod.fst = d.map Prod.fst ++ [kf e] := by
        simp
      have hfc : rest.filter
            (fun x => !decide (kf x ∈ (d ++ [(kf e, e)]).map Prod.fst)) =
          rest.filter (fun x => !decide (kf x ∈ d.map Prod.fst)) := by
        apply List.filter_congr
        intro x hx
        have hne : kf x ≠ kf e := by
          intro h2
          exact hnotin (h2 ▸ List.mem_map_of_mem kf hx)
        rw [hkeys]
        simp [List.mem_append, hne]
      rw [List.foldl_cons, hstep, ih (d ++ [(kf e, e)]) htail, hfc,
        List.filter_cons_of_pos (by simp [h])]
      simp

theorem mem_map_any_eq (kf : Ent → List Char) (r : List Ent) (k : List Char) :
    decide (k ∈ r.map kf) = r.any (fun x => kf x == k) := by
  cases hb : r.any (fun x => kf x == k) with
  | true =>
    rcases List.any_eq_true.mp hb with ⟨x, hx, hkx⟩
    exact decide_eq_true (List.mem_map.mpr ⟨x, hx, by simpa using hkx⟩)
  | false =>
    refine decide_eq_false (fun hmem => ?_)
    rcases List.mem_map.mp hmem with ⟨x, hx, he⟩
    have h2 : r.any (fun x => kf x == k) = true :=
      List.any_eq_true.mpr ⟨x, hx, by simp [he]⟩
    rw [h2] at hb
    cases hb
/-- Claim C5: for every pair of candidate lists given to the Fusion Engine
(`_merge_entities`), the returned list contains no two entries whose `text`
values are equal after lowercasing. -/
theorem merge_entities_no_duplicate_lower (rule_ents spacy_ents : List Ent) :
    ((merge_entities rule_ents spacy_ents).map (fun e => pyLower e.text)).Nodup := by
  show (((spacy_ents.foldl (fun d e => insertIfAbsent d (pyLower e.text) e)
      (rule_ents.foldl (fun d e => dictSet d (pyLower e.text) e) [])).map
      Prod.snd).map (fun e => pyLower e.text)).Nodup
  have hnodup : (((spacy_ents.foldl (fun d e => insertIfAbsent d (pyLower e.text) e)
      (rule_ents.foldl (fun d e => dictSet d (pyLower e.text) e) []))).map
      Prod.fst).Nodup :=
    foldl_insertIfAbsent_keys_nodup (fun e => pyLower e.text) spacy_ents _
      (foldl_dictSet_keys_nodup (fun e => pyLower e.text) rule_ents [] (by simp))
  have hinv : ∀ p ∈ spacy_ents.foldl (fun d e => insertIfAbsent d (pyLower e.text) e)
      (rule_ents.foldl (fun d e => dictSet d (pyLower e.text) e) []),
      ((fun e => pyLower e.text) ∘ Prod.snd) p = Prod.fst p := by
    intro p hp
    rcases foldl_insertIfAbsent_mem (fun e => pyLower e.text) spacy_ents _ p hp
      with h1 | h1
    · rcases foldl_dictSet_mem (fun e => pyLower e.text) rule_ents [] p h1 with h2 | h2
      · cases h2
      · exact h2.2.symm
    · exact h1.2.1.symm
  rw [List.map_map, List.map_congr_left hinv]
  exact hnodup

/-- Claim C4: if a pattern-sourced span and a model-sourced span given to the
Fusion Engine have the same text after lowercasing, then every merged entry
carrying that normalized text is one of the pattern-sourced spans, so the
model-sourced duplicate is absent. -/
theorem merge_entities_pattern_precedence (rule_ents spacy_ents : List Ent)
    (k : List Char) (h : ∃ e ∈ rule_ents, pyLower e.text = k) :
    ∀ e' ∈ merge_entities rule_ents spacy_ents, pyLower e'.text = k →
      e' ∈ rule_ents := by
  intro e' he' hk
  have he2 : e' ∈ ((spacy_ents.foldl (fun d e => insertIfAbsent d (pyLower e.text) e)
      (rule_ents.foldl (fun d e => dictSet d (pyLower e.text) e) [])).map
      Prod.snd) := he'
  rcases List.mem_map.mp he2 with ⟨p, hp, hpe⟩
  rcases foldl_insertIfAbsent_mem (fun e => pyLower e.text) spacy_ents _ p hp
    with h1 | h1
  · rcases foldl_dictSet_mem (fun e => pyLower e.text) rule_ents [] p h1 with h2 | h2
    · cases h2
    · rw [← hpe]
      exact h2.1
  · exfalso
    apply h1.2.2
    have hkm : k ∈ (rule_ents.foldl (fun d e => dictSet d (pyLower e.text) e)
        []).map Prod.fst :=
      foldl_dictSet_keys_mono (fun e => pyLower e.text) rule_ents [] k (Or.inr h)
    rw [h1.2.1, hpe, hk]
    exact hkm

/-- Witness for C4 at the spec's scenario: pattern finds `John Smith`, the
model finds `john smith`, and the merged list is exactly the pattern span. -/
theorem merge_entities_pattern_precedence_witness :
    (∃ e ∈ [jsPattern], pyLower e.text = ("john smith").toList) ∧
    (∀ e' ∈ merge_entities [jsPattern] [jsModel],
      pyLower e'.text = ("john smith").toList → e' ∈ [jsPattern]) ∧
    merge_entities [jsPattern] [jsModel] = [jsPattern] :=
  ⟨by decide,
    merge_entities_pattern_precedence [jsPattern] [jsModel] (("john smith").toList)
      (by decide),
    by decide⟩

/-- Claim C7: the Fusion Engine's output is insertion-ordered: the pattern
spans in their original order, then the model spans whose lowercased text
collides with no pattern span, in their original order. -/
theorem merge_entities_insertion_order (rule_ents spacy_ents : List Ent)
    (h1 : (rule_ents.map (fun e => pyLower e.text)).Nodup)
    (h2 : (spacy_ents.map (fun e => pyLower e.text)).Nodup) :
    merge_entities rule_ents spacy_ents =
      rule_ents ++ spacy_ents.filter
        (fun e => !(rule_ents.any (fun x => pyLower x.text == pyLower e.text))) := by
  show ((spacy_ents.foldl (fun d e => insertIfAbsent d (pyLower e.text) e)
      (rule_ents.foldl (fun d e => dictSet d (pyLower e.text) e) [])).map
      Prod.snd) = _
  have hm1 : rule_ents.foldl (fun d e => dictSet d (pyLower e.text) e) [] =
      rule_ents.map (fun e => (pyLower e.text, e)) :=
    foldl_dictSet_eq_append (fun e => pyLower e.text) rule_ents [] (by simpa using h1)
  rw [hm1, foldl_insertIfAbsent_eq (fun e => pyLower e.text) spacy_ents _ h2]
  have hfc : spacy_ents.filter (fun e => !decide (pyLower e.text ∈
        (rule_ents.map (fun e => (pyLower e.text, e))).map Prod.fst)) =
      spacy_ents.filter
        (fun e => !(rule_ents.any (fun x => pyLower x.text == pyLower e.text))) := by
    apply List.filter_congr
    intro x _
    have hkeys : (rule_ents.map (fun e => (pyLower e.text, e))).map Prod.fst =
        rule_ents.map (fun e => pyLower e.text) := by
      simp
    rw [hkeys, mem_map_any_eq (fun e => pyLower e.text) rule_ents (pyLower x.text)]
  rw [hfc]
  rw [List.map_append, List.map_map, List.map_map,
    show (Prod.snd ∘ fun e : Ent => (pyLower e.text, e)) = id from rfl,
    List.map_id, List.map_id]

/-- Witness for C7 at the spec's scenario: two distinct emails and no
conflict; the merged list keeps both, pattern span first. -/
theorem merge_entities_insertion_order_witness :
    merge_entities [eaSpan] [ebSpan] =
      [eaSpan] ++ [ebSpan].filter
        (fun e => !([eaSpan].any (fun x => pyLower x.text == pyLower e.text))) ∧
    merge_entities [eaSpan] [ebSpan] = [eaSpan, ebSpan] :=
  ⟨merge_entities_insertion_order [eaSpan] [ebSpan] (by decide) (by decide),
    by decide⟩
/-! Lemmas about the email regex scan. -/

theorem runLen_le (p : Char → Bool) : ∀ l : List Char, runLen p l ≤ l.length := by
  intro l
  induction l with
  | nil => simp [runLen]
  | cons c cs ih =>
    by_cases h : p c
    · simpa [runLen, h] using ih
    · simp [runLen, h]

theorem charAtIs_lt {p : Char → Bool} {s : List Char} {i : Nat}
    (h : charAtIs p s i = true) : i < s.length := by
  unfold charAtIs at h
  rcases h2 : s.get? i with _ | c
  · rw [h2] at h
    cases h
  · exact (List.get?_eq_some.mp h2).1

theorem emailTailMatch_bounds {s : List Char} {j : Nat} :
    ∀ {L e : Nat}, emailTailMatch s j L = some e → j < e ∧ e ≤ s.length := by
  intro L
  induction L with
  | zero => intro e h; cases h
  | succ L ih =>
    intro e h
    unfold emailTailMatch at h
    by_cases h1 : charAtIs (· == '.') s (j + L + 1)
    · rw [if_pos h1] at h
      by_cases h2 : 2 ≤ runLen Char.isAlpha (s.drop (j + L + 2))
      · rw [if_pos h2] at h
        have h3 : j + L + 1 < s.length := charAtIs_lt h1
        have h4 : runLen Char.isAlpha (s.drop (j + L + 2)) ≤ s.length - (j + L + 2) := by
          have h5 := runLen_le Char.isAlpha (s.drop (j + L + 2))
          simpa using h5
        have h6 : e = j + L + 2 + runLen Char.isAlpha (s.drop (j + L + 2)) := by
          injection h with h7
          exact h7.symm
        constructor
        · omega
        · omega
      · rw [if_neg h2] at h
        exact ih h
    · rw [if_neg h1] at h
      exact ih h

theorem matchEmailAt_bounds {s : List Char} {i e : Nat}
    (h : matchEmailAt s i = some e) : i < e ∧ e ≤ s.length := by
  unfold matchEmailAt at h
  by_cases h1 : runLen isLocalChar (s.drop i) == 0
  · rw [if_pos h1] at h
    cases h
  · rw [if_neg h1] at h
    by_cases h2 : charAtIs (· == '@') s (i + runLen isLocalChar (s.drop i))
    · rw [if_pos h2] at h
      have h3 := emailTailMatch_bounds h
      omega
    · rw [if_neg h2] at h
      cases h

theorem scanAux_sound {f : Nat → Option (Nat × Nat)} {len : Nat}
    {P : Nat × Nat → Prop} (hf : ∀ i m, f i = some m → P m) :
    ∀ (fuel i : Nat) (m : Nat × Nat), m ∈ scanAux f len fuel i → P m := by
  intro fuel
  induction fuel with
  | zero => intro i m h; cases h
  | succ fuel ih =>
    intro i m h
    unfold scanAux at h
    by_cases h1 : len < i
    · rw [if_pos h1] at h
      cases h
    · rw [if_neg h1] at h
      rcases h2 : f i with _ | m2
      · rw [h2] at h
        exact ih _ m h
      · rw [h2] at h
        rcases List.mem_cons.mp h with h3 | h3
        · subst h3
          exact hf i m2 h2
        · exact ih _ m h3

theorem emailCandidates_facts {s : List Char} {e : Ent}
    (h : e ∈ emailCandidates s) :
    e.start < e.stop ∧ e.stop ≤ s.length ∧ e.text = pySlice s e.start e.stop ∧
      ruleEmailReject e.text = false ∧ e.source = "rule-based" ∧
      e.confidence = none := by
  unfold emailCandidates at h
  have h1 := (List.mem_filter.mp h).1
  have hrej := (List.mem_filter.mp h).2
  rcases List.mem_map.mp h1 with ⟨m, hm, he⟩
  have hb : m.1 < m.2 ∧ m.2 ≤ s.length := by
    refine @scanAux_sound _ _ (fun m => m.1 < m.2 ∧ m.2 ≤ s.length) ?_ _ _ m hm
    intro i m2 h2
    rcases Option.map_eq_some'.mp h2 with ⟨b, hb1, hb2⟩
    have h3 := matchEmailAt_bounds hb1
    rw [← hb2]
    exact h3
  subst he
  refine ⟨hb.1, hb.2, rfl, ?_, rfl, rfl⟩
  simpa using hrej

theorem extract_emails_subset {s : List Char} {e : Ent}
    (h : e ∈ extract_emails_by_rules s) : e ∈ emailCandidates s := by
  unfold extract_emails_by_rules at h
  rcases List.mem_map.mp h with ⟨p, hp, hpe⟩
  rcases foldl_dictSet_mem (fun e => e.text) (emailCandidates s) [] p hp with h1 | h1
  · cases h1
  · rw [← hpe]
    exact h1.1

theorem containsSub_pyLower {t pat : List Char} (h : containsSub t pat = true) :
    containsSub (pyLower t) (pyLower pat) = true := by
  unfold containsSub at *
  have h2 := of_decide_eq_true h
  rcases h2 with ⟨u, v, he⟩
  refine decide_eq_true ⟨pyLower u, pyLower v, ?_⟩
  rw [← he]
  simp [pyLower]

theorem containsSub_of_lower_false {t pat : List Char} (hfix : pyLower pat = pat)
    (h : containsSub (pyLower t) pat = false) : containsSub t pat = false := by
  cases hb : containsSub t pat with
  | false => rfl
  | true =>
    have h2 := containsSub_pyLower hb
    rw [hfix, h] at h2
    cases h2
/-- Counterexample to claim C1: on an input repeating the same email twice,
the deduplicated output's surviving span is that of the second occurrence
(offsets 7-13), not the first (offsets 0-6): the Python dict comprehension
`{e["text"]: e for e in emails}` overwrites a repeated key's value with the
later match. -/
theorem email_dedup_counterexample :
    extract_emails_by_rules (("a@b.co a@b.co").toList) =
      [⟨("a@b.co").toList, 7, 13, "rule-based", none⟩] := by decide

/-- Claim C1 as amended: `extract_emails_by_rules` deduplicates by exact
matched text, and the span that survives for each text is the one of the
last filtered occurrence. -/
theorem email_dedup_keeps_last (t : List Char) :
    ((extract_emails_by_rules t).map (fun e => e.text)).Nodup ∧
      ∀ e ∈ extract_emails_by_rules t,
        ((emailCandidates t).filter (fun x => x.text == e.text)).getLast? =
          some e := by
  constructor
  · show (((emailCandidates t).foldl (fun d e => dictSet d e.text e) []).map
        Prod.snd).map (fun e => e.text) |>.Nodup
    have hnodup : (((emailCandidates t).foldl (fun d e => dictSet d e.text e)
        []).map Prod.fst).Nodup :=
      foldl_dictSet_keys_nodup (fun e => e.text) (emailCandidates t) [] (by simp)
    have hinv : ∀ p ∈ (emailCandidates t).foldl (fun d e => dictSet d e.text e) [],
        ((fun e : Ent => e.text) ∘ Prod.snd) p = Prod.fst p := by
      intro p hp
      rcases foldl_dictSet_mem (fun e => e.text) (emailCandidates t) [] p hp
        with h1 | h1
      · cases h1
      · exact h1.2.symm
    rw [List.map_map, List.map_congr_left hinv]
    exact hnodup
  · intro e he
    have he2 : e ∈ ((emailCandidates t).foldl (fun d e => dictSet d e.text e)
        []).map Prod.snd := he
    rcases List.mem_map.mp he2 with ⟨p, hp, hpe⟩
    have hkey : p.1 = e.text := by
      rcases foldl_dictSet_mem (fun e => e.text) (emailCandidates t) [] p hp
        with h1 | h1
      · cases h1
      · rw [h1.2, hpe]
    have hnodup : (((emailCandidates t).foldl (fun d e => dictSet d e.text e)
        []).map Prod.fst).Nodup :=
      foldl_dictSet_keys_nodup (fun e => e.text) (emailCandidates t) [] (by simp)
    have hfind := dictFind_of_mem hnodup hp
    rw [hkey, hpe] at hfind
    rw [foldl_dictSet_find (fun e => e.text) (emailCandidates t) [] e.text] at hfind
    rcases h2 : ((emailCandidates t).filter (fun x => x.text == e.text)).getLast?
      with _ | x
    · rw [h2] at hfind
      cases hfind
    · rw [h2] at hfind
      injection hfind with h3
      rw [h2, h3]

/-- Witness for the amended C1 at the repeated-email input: the surviving
entry is the last candidate with text `a@b.co`. -/
theorem email_dedup_keeps_last_witness :
    ((extract_emails_by_rules (("a@b.co a@b.co").toList)).map
      (fun e => e.text)).Nodup ∧
      ∀ e ∈ extract_emails_by_rules (("a@b.co a@b.co").toList),
        ((emailCandidates (("a@b.co a@b.co").toList)).filter
          (fun x => x.text == e.text)).getLast? = some e :=
  email_dedup_keeps_last (("a@b.co a@b.co").toList)

/-- Claim C6: no candidate returned by `extract_emails_by_rules` has a text
containing `github`, `linkedin`, `http://`, `https://` or `.git`. -/
theorem email_filter_soundness (t : List Char) (e : Ent)
    (h : e ∈ extract_emails_by_rules t) :
    containsSub e.text (("github").toList) = false ∧
      containsSub e.text (("linkedin").toList) = false ∧
      containsSub e.text (("http://").toList) = false ∧
      containsSub e.text (("https://").toList) = false ∧
      containsSub e.text ((".git").toList) = false := by
  have hc := emailCandidates_facts (extract_emails_subset h)
  have hrej := hc.2.2.2.1
  unfold ruleEmailReject at hrej
  have h1 : (["http://", "https://", "github", "linkedin"].any
      (fun x => containsSub (pyLower e.text) x.toList)) = false ∧
      (e.text.count '@' != 1) = false ∧
      containsSub e.text ((".git").toList) = false := by
    rcases Bool.or_eq_false_iff.mp hrej with ⟨h2, h3⟩
    rcases Bool.or_eq_false_iff.mp h2 with ⟨h4, h5⟩
    exact ⟨h4, h5, h3⟩
  have h2 : containsSub (pyLower e.text) (("http://").toList) = false ∧
      containsSub (pyLower e.text) (("https://").toList) = false ∧
      containsSub (pyLower e.text) (("github").toList) = false ∧
      containsSub (pyLower e.text) (("linkedin").toList) = false := by
    have h3 := h1.1
    simp only [List.any_cons, List.any_nil, Bool.or_eq_false_iff] at h3
    exact ⟨h3.1, h3.2.1, h3.2.2.1, h3.2.2.2.1⟩
  refine ⟨?_, ?_, ?_, ?_, h1.2.2⟩
  · exact containsSub_of_lower_false (by decide) h2.2.2.1
  · exact containsSub_of_lower_false (by decide) h2.2.2.2
  · exact containsSub_of_lower_false (by decide) h2.1
  · exact containsSub_of_lower_false (by decide) h2.2.1

/-- Witness for C6: a concrete extracted email and the five exclusions at
it. -/
theorem email_filter_soundness_witness :
    containsSub exSpan.text (("github").toList) = false ∧
      containsSub exSpan.text (("linkedin").toList) = false ∧
      containsSub exSpan.text (("http://").toList) = false ∧
      containsSub exSpan.text (("https://").toList) = false ∧
      containsSub exSpan.text ((".git").toList) = false :=
  email_filter_soundness exText exSpan (by decide)
/-! Lemmas about the name-pattern matchers. -/

theorem descFrom_mem {n m : Nat} (h : m ∈ descFrom n) : 1 ≤ m ∧ m ≤ n := by
  unfold descFrom at h
  rcases List.mem_map.mp h with ⟨k, hk, he⟩
  have hk2 := List.mem_range.mp hk
  omega

theorem unitEnds_bounds {s : List Char} {p e : Nat} (h : e ∈ unitEnds s p) :
    p < e ∧ e ≤ s.length := by
  unfold unitEnds at h
  by_cases h1 : charAtIs isUpperName s p
  · rw [if_pos h1] at h
    rcases List.mem_map.mp h with ⟨m, hm, he⟩
    have h2 := descFrom_mem hm
    have h3 : p < s.length := charAtIs_lt h1
    have h4 : runLen isLowerName (s.drop (p + 1)) ≤ s.length - (p + 1) := by
      simpa using runLen_le isLowerName (s.drop (p + 1))
    omega
  · rw [if_neg h1] at h
    cases h

theorem oneMoreEnds_bounds {s : List Char} {p e : Nat} (h : e ∈ oneMoreEnds s p) :
    p < e ∧ e ≤ s.length := by
  unfold oneMoreEnds at h
  rcases List.mem_flatMap.mp h with ⟨a, ha, he⟩
  have h1 := descFrom_mem ha
  have h2 := unitEnds_bounds he
  omega

theorem starEnds_zero (s : List Char) (p : Nat) : starEnds s 0 p = [p] := rfl

theorem starEnds_succ (s : List Char) (fuel p : Nat) :
    starEnds s (fuel + 1) p =
      (oneMoreEnds s p).flatMap (starEnds s fuel) ++ [p] := rfl

theorem starEnds_bounds {s : List Char} :
    ∀ {fuel p e : Nat}, e ∈ starEnds s fuel p → e = p ∨ (p < e ∧ e ≤ s.length) := by
  intro fuel
  induction fuel with
  | zero =>
    intro p e h
    rw [starEnds_zero] at h
    left
    simpa using h
  | succ fuel ih =>
    intro p e h
    rw [starEnds_succ] at h
    rcases List.mem_append.mp h with h1 | h1
    · rcases List.mem_flatMap.mp h1 with ⟨e2, he2, he⟩
      have h2 := oneMoreEnds_bounds he2
      rcases ih he with h3 | h3
      · right
        subst h3
        exact h2
      · right
        omega
    · left
      simpa using h1

theorem groupEnds_bounds {s : List Char} {q e : Nat} (h : e ∈ groupEnds s q) :
    q < e ∧ e ≤ s.length := by
  unfold groupEnds at h
  rcases List.mem_flatMap.mp h with ⟨e2, he2, he⟩
  have h1 := unitEnds_bounds he2
  rcases starEnds_bounds he with h2 | h2
  · subst h2
    exact h1
  · omega

theorem firstGroupMatch_sound {s : List Char} :
    ∀ {qs : List Nat} {q e : Nat},
      firstGroupMatch s qs = some (q, e) → e ∈ groupEnds s q := by
  intro qs
  induction qs with
  | nil => intro q e h; cases h
  | cons q0 rest ih =>
    intro q e h
    unfold firstGroupMatch at h
    rcases h2 : groupEnds s q0 with _ | ⟨e0, es⟩
    · rw [h2] at h
      exact ih h
    · rw [h2] at h
      injection h with h3
      cases h3
      rw [h2]
      exact List.mem_cons_self _ _

theorem matchP1At_bounds {s : List Char} {i q e : Nat}
    (h : matchP1At s i = some (q, e)) : q < e ∧ e ≤ s.length := by
  unfold matchP1At at h
  exact groupEnds_bounds (firstGroupMatch_sound h)

theorem firstSome_mem {α : Type} :
    ∀ {l : List (Option α)} {x : α}, firstSome l = some x → some x ∈ l := by
  intro l
  induction l with
  | nil => intro x h; cases h
  | cons o rest ih =>
    intro x h
    rcases o with _ | y
    · exact List.mem_cons_of_mem _ (ih h)
    · have h2 : some y = some x := h
      rw [h2]
      exact List.mem_cons_self _ _

theorem p2Try_sound {s : List Char} {q0 q e : Nat} (h : p2Try s q0 = some (q, e)) :
    q = q0 ∧ e ∈ groupEnds s q0 ∧ dollarAt s e = true := by
  unfold p2Try at h
  rcases Option.map_eq_some'.mp h with ⟨e2, he2, hpe⟩
  have h2 : e2 ∈ (groupEnds s q0).filter (fun e => dollarAt s e) := by
    rcases hh : (groupEnds s q0).filter (fun e => dollarAt s e) with _ | ⟨a, rest⟩
    · rw [hh] at he2
      cases he2
    · rw [hh] at he2
      injection he2 with h3
      subst h3
      exact List.mem_cons_self _ _
  have h3 := List.mem_filter.mp h2

  injection hpe with hq he5
  subst hq
  subst he5
  exact ⟨rfl, h3.1, h3.2⟩

theorem matchP2At_bounds {s : List Char} {i q e : Nat}
    (h : matchP2At s i = some (q, e)) : q < e ∧ e ≤ s.length := by
  unfold matchP2At at h
  by_cases h1 : ((i == 0 || charAtIs (· == '\n') s (i - 1)) &&
      litAt s i ("##".toList)) = true
  · rw [if_pos h1] at h
    have h2 := firstSome_mem h
    rcases List.mem_map.mp h2 with ⟨a, _, he⟩
    rcases p2Try_sound he with ⟨hq, hge, _⟩
    subst hq
    exact groupEnds_bounds hge
  · rw [if_neg h1] at h
    cases h

theorem foldl_step_mem {α β : Type} (step : List β → α → List β) (build : α → β)
    (hstep : ∀ acc m, step acc m = acc ∨ step acc m = acc ++ [build m]) :
    ∀ (l : List α) (acc : List β) (e : β),
      e ∈ l.foldl step acc → e ∈ acc ∨ ∃ m ∈ l, e = build m := by
  intro l
  induction l with
  | nil => intro acc e h; exact Or.inl h
  | cons m rest ih =>
    intro acc e h
    rcases ih (step acc m) e (by simpa using h) with h1 | h1
    · rcases hstep acc m with h2 | h2
      · rw [h2] at h1
        exact Or.inl h1
      · rw [h2] at h1
        rcases List.mem_append.mp h1 with h3 | h3
        · exact Or.inl h3
        · exact Or.inr ⟨m, List.mem_cons_self _ _, by simpa using h3⟩
    · rcases h1 with ⟨m2, hm2, he⟩
      exact Or.inr ⟨m2, List.mem_cons_of_mem _ hm2, he⟩

theorem nameCandidates_bounds {s : List Char} {m : Nat × Nat × ℚ}
    (h : m ∈ nameCandidates s) : m.1 < m.2.1 ∧ m.2.1 ≤ s.length := by
  unfold nameCandidates at h
  rcases List.mem_append.mp h with h1 | h1
  · rcases List.mem_map.mp h1 with ⟨m2, hm2, he⟩
    have hb : m2.1 < m2.2 ∧ m2.2 ≤ s.length := by
      refine @scanAux_sound _ _ (fun m2 => m2.1 < m2.2 ∧ m2.2 ≤ s.length) ?_ _ _ m2 hm2
      intro i m3 h3
      obtain ⟨q, e⟩ := m3
      exact matchP1At_bounds h3
    rw [← he]
    exact hb
  · rcases List.mem_map.mp h1 with ⟨m2, hm2, he⟩
    have hb : m2.1 < m2.2 ∧ m2.2 ≤ s.length := by
      refine @scanAux_sound _ _ (fun m2 => m2.1 < m2.2 ∧ m2.2 ≤ s.length) ?_ _ _ m2 hm2
      intro i m3 h3
      obtain ⟨q, e⟩ := m3
      exact matchP2At_bounds h3
    rw [← he]
    exact hb

theorem extract_names_shape {s : List Char} {e : Ent}
    (h : e ∈ extract_names_by_rules s) :
    ∃ m ∈ nameCandidates s,
      e = ⟨pyStrip (pySlice s m.1 m.2.1), m.1, m.2.1, "rule-based", some m.2.2⟩ := by
  unfold extract_names_by_rules at h
  have hstep : ∀ (acc : List Ent) (m : Nat × Nat × ℚ),
      (fun (names : List Ent) (m : Nat × Nat × ℚ) =>
        let name := pyStrip (pySlice s m.1 m.2.1)
        if nameReject name then names
        else if names.any (fun n => pyLower n.text == pyLower name) then names
        else names ++ [⟨name, m.1, m.2.1, "rule-based", some m.2.2⟩]) acc m = acc ∨
      (fun (names : List Ent) (m : Nat × Nat × ℚ) =>
        let name := pyStrip (pySlice s m.1 m.2.1)
        if nameReject name then names
        else if names.any (fun n => pyLower n.text == pyLower name) then names
        else names ++ [⟨name, m.1, m.2.1, "rule-based", some m.2.2⟩]) acc m =
        acc ++ [⟨pyStrip (pySlice s m.1 m.2.1), m.1, m.2.1, "rule-based",
          some m.2.2⟩] := by
    intro acc m
    dsimp only
    by_cases h1 : nameReject (pyStrip (pySlice s m.1 m.2.1))
    · rw [if_pos h1]
      exact Or.inl rfl
    · rw [if_neg h1]
      by_cases h2 : acc.any
          (fun n => pyLower n.text == pyLower (pyStrip (pySlice s m.1 m.2.1)))
      · rw [if_pos h2]
        exact Or.inl rfl
      · rw [if_neg h2]
        exact Or.inr rfl
  rcases foldl_step_mem _ _ hstep (nameCandidates s) [] e h with h1 | h1
  · cases h1
  · exact h1
/-- Counterexample to claim C8: on `"Name: \u1680abc"` the first name
pattern's separator backtracks so that the capture group starts at U+1680,
a character that is both in the class `[A-ZÀ-ỹ]` and Python whitespace;
`str.strip()` then removes it, so the stored text `"abc"` differs from the
slice `source_text[6:10]` of the stored offsets. -/
theorem name_offsets_counterexample :
    extract_names_by_rules (("Name: \u1680abc").toList) =
      [⟨("abc").toList, 6, 10, "rule-based", some (mkRat 9 10)⟩] ∧
    pySlice (("Name: \u1680abc").toList) 6 10 ≠ ("abc").toList := by decide

/-- Claim C8 as amended: every candidate span of either extractor has
`0 ≤ start < end ≤ length(source_text)`; an email span's text is exactly the
slice of its offsets, and a name span's text is the stripped slice of its
offsets (which can differ from the raw slice when stripping removes
characters). -/
theorem extract_offsets_valid (t : List Char) :
    (∀ e ∈ extract_emails_by_rules t,
      e.start < e.stop ∧ e.stop ≤ t.length ∧ pySlice t e.start e.stop = e.text) ∧
    (∀ e ∈ extract_names_by_rules t,
      e.start < e.stop ∧ e.stop ≤ t.length ∧
        pyStrip (pySlice t e.start e.stop) = e.text) := by
  constructor
  · intro e he
    have hc := emailCandidates_facts (extract_emails_subset he)
    exact ⟨hc.1, hc.2.1, hc.2.2.1.symm⟩
  · intro e he
    rcases extract_names_shape he with ⟨m, hm, he2⟩
    have hb := nameCandidates_bounds hm
    subst he2
    exact ⟨hb.1, hb.2, rfl⟩

/-- Counterexample to claim C2: on the spec's literal scenario input, no
emitted NAME candidate has text `"Nguyen Van A"`: the regex
`[A-ZÀ-ỹ][a-zà-ỹ]+` demands at least one lowercase letter after each
capital, so the single-letter word `A` cannot end the capture. -/
theorem scenario_name_counterexample :
    (extract_names_by_rules
      (("Name: Nguyen Van A\nEmail: a@example.com").toList)).map
      (fun e => e.text) = [("Nguyen Van").toList] := by decide

/-- Claim C2 as amended: on the scenario input the Pattern Extractor yields
exactly the NAME candidate `"Nguyen Van"` with confidence 0.9 and the EMAIL
candidate `"a@example.com"`. -/
theorem scenario_extractions :
    extract_names_by_rules (("Name: Nguyen Van A\nEmail: a@example.com").toList) =
      [⟨("Nguyen Van").toList, 6, 16, "rule-based", some (mkRat 9 10)⟩] ∧
    extract_emails_by_rules (("Name: Nguyen Van A\nEmail: a@example.com").toList) =
      [⟨("a@example.com").toList, 26, 39, "rule-based", none⟩] := by decide
/-- Counterexample to claim C3: the adapter accepts (and returns) the
model span `a@linkedin.com`, which the claimed predicate — and the Pattern
Extractor's filter — rejects; conversely the adapter rejects `a@b.GIT`,
which the Pattern Extractor's filter accepts, because the adapter checks
`.git` on the lowercased text and the rule filter on the raw text. -/
theorem adapter_filter_counterexample :
    extract_by_spacy [⟨"EMAIL", ("a@linkedin.com").toList, 7, 21⟩] =
      Except.ok [("NAME", []), ("EMAIL",
        [⟨("a@linkedin.com").toList, 7, 21, "spacy", none⟩])] ∧
    ruleEmailReject (("a@linkedin.com").toList) = true ∧
    claimedAdapterReject (("a@linkedin.com").toList) = true ∧
    spacyEmailReject (("a@linkedin.com").toList) = false ∧
    spacyEmailReject (("a@b.GIT").toList) = true ∧
    ruleEmailReject (("a@b.GIT").toList) = false := by decide

/-- Claim C3 as amended: the adapter's EMAIL filter rejects a span text
exactly when the text case-insensitively contains `http://`, `github` or
`.git`, or its number of `@` characters differs from one — a strictly
different predicate from the Pattern Extractor's filter, which also rejects
`https://` and `linkedin` and checks `.git` case-sensitively. -/
theorem adapter_filter_amended (t : List Char) :
    spacyEmailReject t = amendedAdapterReject t := by
  unfold spacyEmailReject amendedAdapterReject
  simp only [List.any_cons, List.any_nil, Bool.or_false, Bool.or_assoc, bne]

/-- Claim C9: when text extraction yields a missing (`None`) or empty text,
`predict` returns `None` and performs no entity extraction, for every
injected model. -/
theorem predict_empty_input (nlp : List Char → List SpacyEnt) (pdf_path : String) :
    predict nlp pdf_path none = Except.ok none ∧
      predict nlp pdf_path (some []) = Except.ok none :=
  ⟨rfl, rfl⟩

/-! Lemmas about the spaCy adapter's label dict. -/

theorem dictAppend_keys :
    ∀ {d d2 : List (String × List Ent)} {k : String} {v : Ent},
      dictAppend d k v = some d2 → d2.map Prod.fst = d.map Prod.fst := by
  intro d
  induction d with
  | nil => intro d2 k v h; cases h
  | cons p rest ih =>
    intro d2 k v h
    obtain ⟨k0, vs⟩ := p
    by_cases h1 : k = k0
    · rw [show dictAppend ((k0, vs) :: rest) k v =
          some ((k0, vs ++ [v]) :: rest) from by simp [dictAppend, h1]] at h
      injection h with h2
      rw [← h2]
      simp
    · rw [show dictAppend ((k0, vs) :: rest) k v =
          (dictAppend rest k v).map (fun r => (k0, vs) :: r) from by
        simp [dictAppend, h1]] at h
      rcases Option.map_eq_some'.mp h with ⟨r, hr, he⟩
      rw [← he]
      simp [ih hr]

theorem dictAppend_isSome :
    ∀ {d : List (String × List Ent)} {k : String} (v : Ent),
      k ∈ d.map Prod.fst → ∃ d2, dictAppend d k v = some d2 := by
  intro d
  induction d with
  | nil => intro k v h; cases h
  | cons p rest ih =>
    intro k v h
    obtain ⟨k0, vs⟩ := p
    by_cases h1 : k = k0
    · exact ⟨(k0, vs ++ [v]) :: rest, by simp [dictAppend, h1]⟩
    · have h2 : k ∈ rest.map Prod.fst := by
        rw [List.map_cons] at h
        rcases List.mem_cons.mp h with h3 | h3
        · exact absurd h3 h1
        · exact h3
      rcases ih v h2 with ⟨r, hr⟩
      exact ⟨(k0, vs) :: r, by simp [dictAppend, h1, hr]⟩

theorem dictAppend_eq_none :
    ∀ {d : List (String × List Ent)} {k : String} (v : Ent),
      k ∉ d.map Prod.fst → dictAppend d k v = none := by
  intro d
  induction d with
  | nil => intro k v _; rfl
  | cons p rest ih =>
    intro k v h
    obtain ⟨k0, vs⟩ := p
    have h1 : k ≠ k0 := fun h2 => h (by simp [h2])
    have h2 : k ∉ rest.map Prod.fst := fun h3 => h (by simp [h3])
    simp [dictAppend, h1, ih v h2]

theorem spacyLoop_ok_keys :
    ∀ {ents : List SpacyEnt} {d d2 : List (String × List Ent)},
      spacyLoop ents d = Except.ok d2 → d2.map Prod.fst = d.map Prod.fst := by
  intro ents
  induction ents with
  | nil =>
    intro d d2 h
    injection h with h1
    rw [h1]
  | cons ent rest ih =>
    intro d d2 h
    unfold spacyLoop at h
    by_cases h1 : (ent.label == "EMAIL" && spacyEmailReject ent.text) = true
    · rw [if_pos h1] at h
      exact ih h
    · rw [if_neg h1] at h
      rcases h2 : dictAppend d ent.label
          ⟨ent.text, ent.start_char, ent.end_char, "spacy", none⟩ with _ | d3
      · rw [h2] at h
        cases h
      · rw [h2] at h
        rw [ih h]
        exact dictAppend_keys h2

theorem spacyLoop_error :
    ∀ {ents : List SpacyEnt} {d : List (String × List Ent)},
      d.map Prod.fst = ["NAME", "EMAIL"] →
      (∃ e ∈ ents, e.label ≠ "NAME" ∧ e.label ≠ "EMAIL") →
      (spacyLoop ents d).isOk = false := by
  intro ents
  induction ents with
  | nil =>
    intro d _ h
    rcases h with ⟨e, he, _⟩
    cases he
  | cons ent rest ih =>
    intro d hkeys hbad
    unfold spacyLoop
    by_cases h1 : (ent.label == "EMAIL" && spacyEmailReject ent.text) = true
    · rw [if_pos h1]
      have h2 : ent.label = "EMAIL" := by
        have h3 := (Bool.and_eq_true _ _).mp h1
        exact of_decide_eq_true (by simpa using h3.1)
      rcases hbad with ⟨e, he, hl⟩
      rcases List.mem_cons.mp he with h4 | h4
      · exact absurd (h4 ▸ h2) hl.2
      · exact ih hkeys ⟨e, h4, hl⟩
    · rw [if_neg h1]
      by_cases h2 : ent.label = "NAME" ∨ ent.label = "EMAIL"
      · have h3 : ent.label ∈ d.map Prod.fst := by
          rw [hkeys]
          rcases h2 with h4 | h4
          · simp [h4]
          · simp [h4]
        rcases dictAppend_isSome
          ⟨ent.text, ent.start_char, ent.end_char, "spacy", none⟩ h3 with ⟨d3, hd3⟩
        rw [hd3]
        have hkeys2 : d3.map Prod.fst = ["NAME", "EMAIL"] := by
          rw [dictAppend_keys hd3, hkeys]
        rcases hbad with ⟨e, he, hl⟩
        rcases List.mem_cons.mp he with h4 | h4
        · subst h4
          rcases h2 with h5 | h5
          · exact absurd h5 hl.1
          · exact absurd h5 hl.2
        · exact ih hkeys2 ⟨e, h4, hl⟩
      · have h3 : ent.label ∉ d.map Prod.fst := by
          rw [hkeys]
          intro h4
          rcases List.mem_cons.mp h4 with h5 | h5
          · exact h2 (Or.inl h5)
          · exact h2 (Or.inr (by simpa using h5))
        rw [dictAppend_eq_none _ h3]
        rfl

/-- Claim C10: a model span whose label is outside `{NAME, EMAIL}` makes
`extract_by_spacy` fail with a `KeyError` rather than being dropped or
stored under a new key, and every successful call returns a dict with
exactly the keys `NAME` and `EMAIL`. -/
theorem extract_by_spacy_closed_labels (ents : List SpacyEnt) :
    ((∃ e ∈ ents, e.label ≠ "NAME" ∧ e.label ≠ "EMAIL") →
      (extract_by_spacy ents).isOk = false) ∧
    (∀ d, extract_by_spacy ents = Except.ok d →
      d.map Prod.fst = ["NAME", "EMAIL"]) := by
  constructor
  · intro h
    exact spacyLoop_error (by decide) h
  · intro d h
    rw [spacyLoop_ok_keys h]
    decide

/-- Witness for C10: a `PHONE` span makes the adapter fail, and a NAME-only
run returns the two-key dict. -/
theorem extract_by_spacy_closed_labels_witness :
    (extract_by_spacy [⟨"PHONE", ("123").toList, 0, 3⟩]).isOk = false ∧
      (extract_by_spacy [⟨"NAME", ("Ana").toList, 0, 3⟩] =
        Except.ok [("NAME", [⟨("Ana").toList, 0, 3, "spacy", none⟩]),
          ("EMAIL", [])]) :=
  ⟨(extract_by_spacy_closed_labels [⟨"PHONE", ("123").toList, 0, 3⟩]).1
      ⟨⟨"PHONE", ("123").toList, 0, 3⟩, by decide, by decide, by decide⟩,
    by decide⟩
